import Mathlib

/-!
Verification of snarkOS `node/narwhal/src/helpers/cache.rs`.

`Cache<N>` holds seven `RwLock<BTreeMap<OffsetDateTime, HashMap<K, u32>>>`
fields and a shared helper `Cache::retain_and_insert`.  Shallow embedding:

* `OffsetDateTime` is an `Int` count of nanoseconds since the Unix epoch,
  bounded by `tsMin`/`tsMax` (the `time` crate's `OffsetDateTime::MIN` /
  `OffsetDateTime::MAX`); `saturating_sub` clamps into that range.
* `HashMap<K, u32>` is an association list `Bucket K` whose `u32` counters
  are `Nat` values taken modulo `U32 = 2 ^ 32` (release-mode wrapping of
  `+= 1` and of the `cache_hits` accumulator).
* `BTreeMap` is an association list `BucketMap K`; `split_off(&cutoff)`
  followed by `clear` and re-insertion of the split-off part keeps exactly
  the entries with timestamp `≥ cutoff`, modelled as `List.filter`.
* The wall clock (`OffsetDateTime::now_utc()`) is an explicit `now` argument
  supplied to each call.
-/

namespace SnarkOS

/-- The modulus of Rust `u32` arithmetic: `2 ^ 32`. -/
def U32 : Nat := 4294967296

/-- Nanoseconds per second; `Duration::seconds(s)` spans `s * nsPerSec`
nanoseconds. -/
def nsPerSec : Int := 1000000000

/-- `OffsetDateTime::MIN` (-9999-01-01 0:00 UTC) in nanoseconds since the
Unix epoch. -/
def tsMin : Int := -377705116800000000000

/-- `OffsetDateTime::MAX` (+9999-12-31 23:59:59.999999999 UTC) in nanoseconds
since the Unix epoch. -/
def tsMax : Int := 253402300799999999999

/-- `OffsetDateTime::saturating_sub`: `t - d`, clamped into the representable
range instead of over- or underflowing. -/
def saturatingSub (t d : Int) : Int := max tsMin (min tsMax (t - d))

/-- The eviction cutoff computed by `retain_and_insert`:
`now.saturating_sub(Duration::seconds(interval_in_secs))`. -/
def cutoffOf (now interval_in_secs : Int) : Int :=
  saturatingSub now (interval_in_secs * nsPerSec)

/-- One `HashMap<K, u32>` bucket: keys with their hit counters. -/
abbrev Bucket (K : Type) := List (K × Nat)

/-- A `BTreeMap<OffsetDateTime, HashMap<K, u32>>`: timestamped buckets. -/
abbrev BucketMap (K : Type) := List (Int × Bucket K)

variable {K : Type}

/-- `bucket.get(&key)` with the `unwrap_or(&0)` default. -/
def lookupCount [DecidableEq K] : Bucket K → K → Nat
  | [], _ => 0
  | (a, c) :: rest, k => if a = k then c else lookupCount rest k

/-- `*bucket.entry(key).or_default() += 1`: the wrapping `u32` increment of
the key's counter, inserting `0` first when the key is absent. -/
def bumpKey [DecidableEq K] : Bucket K → K → Bucket K
  | [], k => [(k, 1 % U32)]
  | (a, c) :: rest, k =>
    if a = k then (a, (c + 1) % U32) :: rest else (a, c) :: bumpKey rest k

/-- `*map.entry(now).or_default().entry(key).or_default() += 1`: bump the
key's counter inside the bucket at `now`, creating that bucket if absent. -/
def bumpAt [DecidableEq K] : BucketMap K → Int → K → BucketMap K
  | [], now, k => [(now, bumpKey [] k)]
  | (t, b) :: rest, now, k =>
    if t = now then (t, bumpKey b k) :: rest else (t, b) :: bumpAt rest now k

/-- The `cache_hits` accumulator: a `u32` starting at `0`, wrapping at each
`+=`. -/
def sumHits (l : List Nat) : Nat := l.foldl (fun acc c => (acc + c) % U32) 0

/-- `Cache::retain_and_insert`: fetch `now`, bump the counter of `key` in the
bucket at `now`, split off the subtree at the saturated cutoff, clear the
expired part, re-insert the retained buckets while summing the counters of
`key`, and return the frequency.  The returned pair is (count, post map). -/
def retain_and_insert [DecidableEq K] (m : BucketMap K) (key : K)
    (interval_in_secs : Int) (now : Int) : Nat × BucketMap K :=
  let m1 := bumpAt m now key
  let retained := m1.filter (fun b => cutoffOf now interval_in_secs ≤ b.1)
  (sumHits (retained.map (fun b => lookupCount b.2 key)), retained)

/-- The list of bucket timestamps of a map (`BTreeMap` key set). -/
def times (m : BucketMap K) : List Int := m.map (fun b => b.1)

/-- First bucket stored at timestamp `t`, if any (`BTreeMap::get`). -/
def lookupBucket : BucketMap K → Int → Option (Bucket K)
  | [], _ => none
  | (a, b) :: rest, t => if a = t then some b else lookupBucket rest t

/-- The stored counter of `k` in the bucket at time `t` (0 when absent). -/
def countAt [DecidableEq K] : BucketMap K → Int → K → Nat
  | [], _, _ => 0
  | (a, b) :: rest, t, k => if a = t then lookupCount b k else countAt rest t k

/-- Sum of the stored counters of `k` over buckets at times `≥ c`. -/
def windowSum [DecidableEq K] : BucketMap K → Int → K → Nat
  | [], _, _ => 0
  | (t, b) :: rest, c, k =>
    (if c ≤ t then lookupCount b k else 0) + windowSum rest c k

/-- Sum of the stored counters of `k` over all buckets of the map. -/
def totalCount [DecidableEq K] (m : BucketMap K) (k : K) : Nat :=
  (m.map (fun b => lookupCount b.2 k)).sum

/-- A sequence of `retain_and_insert` calls for one key and one fixed
interval, at the given list of wall-clock timestamps; returns the list of
returned counts and the final map. -/
def runCalls [DecidableEq K] (m : BucketMap K) (k : K) (w : Int) :
    List Int → List Nat × BucketMap K
  | [] => ([], m)
  | t :: ts =>
    let r := retain_and_insert m k w t
    let rest := runCalls r.2 k w ts
    (r.1 :: rest.1, rest.2)

/-- A sequence of `retain_and_insert` calls with per-call keys and one fixed
interval; each returned count is paired with the key of its call. -/
def runOps [DecidableEq K] (m : BucketMap K) (w : Int) :
    List (K × Int) → List (K × Nat) × BucketMap K
  | [] => ([], m)
  | (k, t) :: ops =>
    let r := retain_and_insert m k w t
    let rest := runOps r.2 w ops
    ((k, r.1) :: rest.1, rest.2)

/-- A sequence of `retain_and_insert` calls with per-call keys AND per-call
intervals (the source supplies `interval_in_secs` at every call). -/
def runOpsVar [DecidableEq K] (m : BucketMap K) :
    List (K × Int × Int) → List (K × Nat) × BucketMap K
  | [] => ([], m)
  | (k, w, t) :: ops =>
    let r := retain_and_insert m k w t
    let rest := runOpsVar r.2 ops
    ((k, r.1) :: rest.1, rest.2)

/-- The counts returned to calls that used key `k`, in call order. -/
def outputsFor [DecidableEq K] (k : K) (l : List (K × Nat)) : List Nat :=
  (l.filter (fun p => p.1 = k)).map (fun p => p.2)

/-- `Cache<N>`: seven windowed-frequency maps, one per event category.  The
key types (`IpAddr`, `SocketAddr`, `Field<N>`, `TransmissionID<N>`) are
abstract type parameters. -/
structure Cache (A S F T : Type) where
  seen_inbound_connections : BucketMap A
  seen_inbound_events : BucketMap S
  seen_inbound_certificates : BucketMap F
  seen_inbound_transmissions : BucketMap T
  seen_outbound_events : BucketMap S
  seen_outbound_certificates : BucketMap S
  seen_outbound_transmissions : BucketMap S

/-- `Cache::new` / `Cache::default`: all seven maps empty. -/
def Cache.new (A S F T : Type) : Cache A S F T :=
  { seen_inbound_connections := []
    seen_inbound_events := []
    seen_inbound_certificates := []
    seen_inbound_transmissions := []
    seen_outbound_events := []
    seen_outbound_certificates := []
    seen_outbound_transmissions := [] }

variable {A S F T : Type}

/-- `Cache::insert_inbound_connection`. -/
def Cache.insert_inbound_connection [DecidableEq A] (c : Cache A S F T)
    (peer_ip : A) (interval_in_secs now : Int) : Nat × Cache A S F T :=
  let r := retain_and_insert c.seen_inbound_connections peer_ip interval_in_secs now
  (r.1, { c with seen_inbound_connections := r.2 })

/-- `Cache::insert_inbound_event`. -/
def Cache.insert_inbound_event [DecidableEq S] (c : Cache A S F T)
    (peer_ip : S) (interval_in_secs now : Int) : Nat × Cache A S F T :=
  let r := retain_and_insert c.seen_inbound_events peer_ip interval_in_secs now
  (r.1, { c with seen_inbound_events := r.2 })

/-- `Cache::insert_inbound_certificate`. -/
def Cache.insert_inbound_certificate [DecidableEq F] (c : Cache A S F T)
    (key : F) (interval_in_secs now : Int) : Nat × Cache A S F T :=
  let r := retain_and_insert c.seen_inbound_certificates key interval_in_secs now
  (r.1, { c with seen_inbound_certificates := r.2 })

/-- `Cache::insert_inbound_transmission`. -/
def Cache.insert_inbound_transmission [DecidableEq T] (c : Cache A S F T)
    (key : T) (interval_in_secs now : Int) : Nat × Cache A S F T :=
  let r := retain_and_insert c.seen_inbound_transmissions key interval_in_secs now
  (r.1, { c with seen_inbound_transmissions := r.2 })

/-- `Cache::insert_outbound_event`. -/
def Cache.insert_outbound_event [DecidableEq S] (c : Cache A S F T)
    (peer_ip : S) (interval_in_secs now : Int) : Nat × Cache A S F T :=
  let r := retain_and_insert c.seen_outbound_events peer_ip interval_in_secs now
  (r.1, { c with seen_outbound_events := r.2 })

/-- `Cache::insert_outbound_certificate`. -/
def Cache.insert_outbound_certificate [DecidableEq S] (c : Cache A S F T)
    (peer_ip : S) (interval_in_secs now : Int) : Nat × Cache A S F T :=
  let r := retain_and_insert c.seen_outbound_certificates peer_ip interval_in_secs now
  (r.1, { c with seen_outbound_certificates := r.2 })

/-- `Cache::insert_outbound_transmission`. -/
def Cache.insert_outbound_transmission [DecidableEq S] (c : Cache A S F T)
    (peer_ip : S) (interval_in_secs now : Int) : Nat × Cache A S F T :=
  let r := retain_and_insert c.seen_outbound_transmissions peer_ip interval_in_secs now
  (r.1, { c with seen_outbound_transmissions := r.2 })

/-! Basic lemmas about the accumulator, the cutoff, and bucket updates. -/

theorem sumHits_aux (l : List Nat) (a : Nat) :
    l.foldl (fun acc c => (acc + c) % U32) (a % U32) = (a + l.sum) % U32 := by
  induction l generalizing a with
  | nil => simp
  | cons c rest ih =>
    simp only [List.foldl_cons, List.sum_cons]
    rw [Nat.mod_add_mod, ih (a + c)]
    ring_nf

theorem sumHits_eq (l : List Nat) : sumHits l = l.sum % U32 := by
  have h := sumHits_aux l 0
  simpa [sumHits] using h

theorem tsMin_le_cutoff (now i : Int) : tsMin ≤ cutoffOf now i :=
  le_max_left _ _

theorem cutoff_le_tsMax (now i : Int) : cutoffOf now i ≤ tsMax := by
  refine max_le (by decide) (min_le_left _ _)

theorem cutoff_le_self (now i : Int) (hi : 0 ≤ i) (hnow : tsMin ≤ now) :
    cutoffOf now i ≤ now := by
  refine max_le hnow (le_trans (min_le_right _ _) ?_)
  have : 0 ≤ i * nsPerSec := mul_nonneg hi (by decide)
  omega

theorem cutoff_mono (t s i : Int) (h : t ≤ s) : cutoffOf t i ≤ cutoffOf s i := by
  unfold cutoffOf saturatingSub
  have : t - i * nsPerSec ≤ s - i * nsPerSec := by omega
  exact max_le_max (le_refl _) (min_le_min (le_refl _) this)

theorem self_lt_cutoff (now i : Int) (hi : i < 0) (hnow : now < tsMax) :
    now < cutoffOf now i := by
  have h1 : i * nsPerSec ≤ -nsPerSec := by
    have : i ≤ -1 := by omega
    have := mul_le_mul_of_nonneg_right this (show (0:Int) ≤ nsPerSec by decide)
    simpa using this
  have h2 : now < now - i * nsPerSec := by
    have : (0:Int) < nsPerSec := by decide
    omega
  exact lt_max_of_lt_right (lt_min hnow h2)

theorem sub_le_cutoff (now i : Int) (h : now - i * nsPerSec ≤ tsMax) :
    now - i * nsPerSec ≤ cutoffOf now i := by
  refine le_trans ?_ (le_max_right _ _)
  exact le_min h (le_refl _)

theorem cutoff_eq_tsMin (now i : Int) (h : now - i * nsPerSec < tsMin) :
    cutoffOf now i = tsMin := by
  unfold cutoffOf saturatingSub
  have h2 : tsMin ≤ tsMax := by decide
  rw [min_eq_right (by omega)]
  exact max_eq_left (by omega)

theorem lookupCount_bumpKey_self [DecidableEq K] (b : Bucket K) (k : K) :
    lookupCount (bumpKey b k) k = (lookupCount b k + 1) % U32 := by
  induction b with
  | nil => simp [bumpKey, lookupCount]
  | cons p rest ih =>
    obtain ⟨a, c⟩ := p
    by_cases h : a = k
    · subst h
      simp [bumpKey, lookupCount]
    · simp [bumpKey, lookupCount, h, ih]

theorem lookupCount_bumpKey_ne [DecidableEq K] (b : Bucket K) (k k' : K)
    (h : k ≠ k') : lookupCount (bumpKey b k') k = lookupCount b k := by
  have h' : k' ≠ k := Ne.symm h
  induction b with
  | nil => simp [bumpKey, lookupCount, h']
  | cons p rest ih =>
    obtain ⟨a, c⟩ := p
    by_cases ha : a = k'
    · subst ha
      simp [bumpKey, lookupCount, h']
    · simp [bumpKey, lookupCount, ha, ih]

theorem bumpKey_ne_nil [DecidableEq K] (b : Bucket K) (k : K) :
    bumpKey b k ≠ [] := by
  cases b with
  | nil => simp [bumpKey]
  | cons p rest =>
    obtain ⟨a, c⟩ := p
    by_cases h : a = k <;> simp [bumpKey, h]

theorem countAt_bumpAt_self [DecidableEq K] (m : BucketMap K) (now : Int)
    (k : K) : countAt (bumpAt m now k) now k = (countAt m now k + 1) % U32 := by
  induction m with
  | nil => simp [bumpAt, countAt, lookupCount, lookupCount_bumpKey_self]
  | cons p rest ih =>
    obtain ⟨t, b⟩ := p
    by_cases h : t = now
    · subst h
      simp [bumpAt, countAt, lookupCount_bumpKey_self]
    · simp [bumpAt, countAt, h, ih]

theorem countAt_bumpAt_ne_time [DecidableEq K] (m : BucketMap K)
    (now t : Int) (k k' : K) (h : t ≠ now) :
    countAt (bumpAt m now k') t k = countAt m t k := by
  have h' : now ≠ t := Ne.symm h
  induction m with
  | nil => simp [bumpAt, countAt, h']
  | cons p rest ih =>
    obtain ⟨a, b⟩ := p
    by_cases ha : a = now
    · subst ha
      simp [bumpAt, countAt, h']
    · simp [bumpAt, countAt, ha, ih]

theorem countAt_bumpAt_ne_key [DecidableEq K] (m : BucketMap K)
    (now t : Int) (k k' : K) (h : k ≠ k') :
    countAt (bumpAt m now k') t k = countAt m t k := by
  have h' : k' ≠ k := Ne.symm h
  induction m with
  | nil =>
    by_cases ht : now = t <;> simp [bumpAt, countAt, ht, lookupCount, h']
  | cons p rest ih =>
    obtain ⟨a, b⟩ := p
    by_cases ha : a = now
    · subst ha
      simp [bumpAt, countAt, lookupCount_bumpKey_ne _ _ _ h]
    · simp [bumpAt, countAt, ha, ih]

theorem bumpAt_of_not_mem [DecidableEq K] (m : BucketMap K) (now : Int)
    (k : K) (h : now ∉ times m) :
    bumpAt m now k = m ++ [(now, [(k, 1 % U32)])] := by
  induction m with
  | nil => simp [bumpAt, bumpKey]
  | cons p rest ih =>
    obtain ⟨a, b⟩ := p
    have ha : a ≠ now := by
      intro hh
      exact h (by simp [times, hh])
    have hrest : now ∉ times rest := by
      intro hh
      exact h (by simp [times] at hh ⊢; exact Or.inr hh)
    simp [bumpAt, ha, ih hrest]

theorem times_bumpAt_of_mem [DecidableEq K] (m : BucketMap K) (now : Int)
    (k : K) (h : now ∈ times m) : times (bumpAt m now k) = times m := by
  induction m with
  | nil => simp [times] at h
  | cons p rest ih =>
    obtain ⟨a, b⟩ := p
    by_cases ha : a = now
    · subst ha
      simp [bumpAt, times]
    · have hrest : now ∈ times rest := by
        simp [times] at h
        rcases h with h | h
        · exact absurd h.symm ha
        · simpa [times] using h
      have ihr := ih hrest
      simp only [bumpAt, if_neg ha, times, List.map_cons]
      simp only [times] at ihr
      rw [ihr]

theorem mem_times_bumpAt [DecidableEq K] (m : BucketMap K) (now t : Int)
    (k : K) : t ∈ times (bumpAt m now k) ↔ t = now ∨ t ∈ times m := by
  by_cases hm : now ∈ times m
  · rw [times_bumpAt_of_mem m now k hm]
    constructor
    · exact fun h => Or.inr h
    · rintro (rfl | h)
      · exact hm
      · exact h
  · rw [bumpAt_of_not_mem m now k hm]
    simp only [times, List.map_append, List.map_cons, List.map_nil,
      List.mem_append, List.mem_cons, List.not_mem_nil, or_false]
    tauto

theorem nodup_times_bumpAt [DecidableEq K] (m : BucketMap K) (now : Int)
    (k : K) (h : (times m).Nodup) : (times (bumpAt m now k)).Nodup := by
  by_cases hm : now ∈ times m
  · rw [times_bumpAt_of_mem m now k hm]
    exact h
  · rw [bumpAt_of_not_mem m now k hm]
    simp only [times, List.map_append, List.map_cons, List.map_nil]
    rw [List.nodup_append]
    refine ⟨h, List.nodup_singleton _, ?_⟩
    intro a ha hb
    simp at hb
    subst hb
    exact hm ha

theorem one_mod_U32 : 1 % U32 = 1 := by decide

theorem lookupBucket_filter_ge (m : BucketMap K) (c t : Int) :
    lookupBucket (m.filter fun b => decide (c ≤ b.1)) t
      = if c ≤ t then lookupBucket m t else none := by
  induction m with
  | nil => simp [lookupBucket]
  | cons p rest ih =>
    obtain ⟨a, b⟩ := p
    by_cases hca : c ≤ a
    · by_cases hat : a = t
      · subst hat
        simp [List.filter_cons, hca, lookupBucket]
      · simp [List.filter_cons, hca, lookupBucket, hat, ih]
    · by_cases hat : a = t
      · subst hat
        simp [List.filter_cons, hca, lookupBucket, ih]
      · simp [List.filter_cons, hca, lookupBucket, hat, ih]

theorem countAt_filter_ge [DecidableEq K] (m : BucketMap K) (c t : Int)
    (k : K) :
    countAt (m.filter fun b => decide (c ≤ b.1)) t k
      = if c ≤ t then countAt m t k else 0 := by
  induction m with
  | nil => simp [countAt]
  | cons p rest ih =>
    obtain ⟨a, b⟩ := p
    by_cases hca : c ≤ a
    · by_cases hat : a = t
      · subst hat
        simp [List.filter_cons, hca, countAt]
      · simp [List.filter_cons, hca, countAt, hat, ih]
    · by_cases hat : a = t
      · subst hat
        simp [List.filter_cons, hca, countAt, ih]
      · simp [List.filter_cons, hca, countAt, hat, ih]

theorem nodup_times_filter (m : BucketMap K) (p : Int × Bucket K → Bool)
    (h : (times m).Nodup) : (times (m.filter p)).Nodup := by
  have hsub : List.Sublist (times (m.filter p)) (times m) := by
    unfold times
    exact List.Sublist.map (fun b => b.1) (List.filter_sublist m)
  exact List.Nodup.sublist hsub h

theorem filter_eq_self_of_ge (m : BucketMap K) (c : Int)
    (h : ∀ b ∈ m, c ≤ b.1) :
    (m.filter fun b => decide (c ≤ b.1)) = m := by
  induction m with
  | nil => rfl
  | cons p rest ih =>
    have hp : c ≤ p.1 := h p (by simp)
    simp [List.filter_cons, hp, ih (fun b hb => h b (by simp [hb]))]

theorem filter_eq_nil_of_lt (m : BucketMap K) (c : Int)
    (h : ∀ b ∈ m, b.1 < c) :
    (m.filter fun b => decide (c ≤ b.1)) = [] := by
  induction m with
  | nil => rfl
  | cons p rest ih =>
    have hp : ¬ c ≤ p.1 := not_le.mpr (h p (by simp))
    simp [List.filter_cons, hp, ih (fun b hb => h b (by simp [hb]))]

theorem sum_map_filter_eq_windowSum [DecidableEq K] (m : BucketMap K)
    (c : Int) (k : K) :
    ((m.filter fun b => decide (c ≤ b.1)).map fun b => lookupCount b.2 k).sum
      = windowSum m c k := by
  induction m with
  | nil => simp [windowSum]
  | cons p rest ih =>
    obtain ⟨a, b⟩ := p
    by_cases hca : c ≤ a
    · simp [List.filter_cons, hca, windowSum, ih]
    · simp [List.filter_cons, hca, windowSum, ih]

theorem result_eq [DecidableEq K] (m : BucketMap K) (k : K) (i now : Int) :
    (retain_and_insert m k i now).1
      = windowSum (bumpAt m now k) (cutoffOf now i) k % U32 := by
  simp [retain_and_insert, sumHits_eq, sum_map_filter_eq_windowSum]

theorem post_eq [DecidableEq K] (m : BucketMap K) (k : K) (i now : Int) :
    (retain_and_insert m k i now).2
      = (bumpAt m now k).filter (fun b => decide (cutoffOf now i ≤ b.1)) := rfl

theorem windowSum_append [DecidableEq K] (m1 m2 : BucketMap K) (c : Int)
    (k : K) :
    windowSum (m1 ++ m2) c k = windowSum m1 c k + windowSum m2 c k := by
  induction m1 with
  | nil => simp [windowSum]
  | cons p rest ih =>
    obtain ⟨a, b⟩ := p
    simp [windowSum, ih]
    omega

theorem windowSum_eq_zero_of_lt [DecidableEq K] (m : BucketMap K) (c : Int)
    (k : K) (h : ∀ b ∈ m, b.1 < c) : windowSum m c k = 0 := by
  induction m with
  | nil => rfl
  | cons p rest ih =>
    obtain ⟨a, b⟩ := p
    have ha : ¬ c ≤ a := not_le.mpr (h (a, b) (by simp))
    simp [windowSum, ha, ih (fun b hb => h b (by simp [hb]))]

theorem windowSum_bump [DecidableEq K] (m : BucketMap K) (now c : Int)
    (k : K) (hc : c ≤ now) :
    windowSum m c k + 1 < U32 →
      windowSum (bumpAt m now k) c k = windowSum m c k + 1 := by
  induction m with
  | nil =>
    intro _
    have h1 : (1 : Nat) % U32 = 1 := one_mod_U32
    simp [bumpAt, bumpKey, windowSum, lookupCount, hc, h1]
  | cons p rest ih =>
    intro hov
    obtain ⟨t, b⟩ := p
    by_cases ht : t = now
    · subst ht
      have hexp : windowSum ((t, b) :: rest) c k
          = lookupCount b k + windowSum rest c k := by
        simp [windowSum, hc]
      have hlc : lookupCount b k + 1 < U32 := by omega
      simp [bumpAt, windowSum, lookupCount_bumpKey_self, hc,
        Nat.mod_eq_of_lt hlc]
      omega
    · have hexp : windowSum ((t, b) :: rest) c k
          = (if c ≤ t then lookupCount b k else 0) + windowSum rest c k := rfl
      have hrest : windowSum rest c k + 1 < U32 := by omega
      simp [bumpAt, windowSum, ht, ih hrest]
      omega

theorem totalCount_bump [DecidableEq K] (m : BucketMap K) (now : Int)
    (k : K) :
    totalCount m k + 1 < U32 →
      totalCount (bumpAt m now k) k = totalCount m k + 1 := by
  induction m with
  | nil =>
    intro _
    have h1 : (1 : Nat) % U32 = 1 := one_mod_U32
    simp [bumpAt, bumpKey, totalCount, lookupCount, h1]
  | cons p rest ih =>
    intro hov
    obtain ⟨t, b⟩ := p
    have hexp : totalCount ((t, b) :: rest) k
        = lookupCount b k + totalCount rest k := by
      simp [totalCount]
    by_cases ht : t = now
    · subst ht
      have hlc : lookupCount b k + 1 < U32 := by omega
      simp [bumpAt, totalCount, lookupCount_bumpKey_self,
        Nat.mod_eq_of_lt hlc] at hexp ⊢
      omega
    · have hrest : totalCount rest k + 1 < U32 := by omega
      have ihr := ih hrest
      simp [bumpAt, totalCount, ht] at ihr ⊢
      omega

theorem mem_times_filter_ge (m : BucketMap K) (c t : Int) :
    t ∈ times (m.filter fun b => decide (c ≤ b.1)) ↔ c ≤ t ∧ t ∈ times m := by
  unfold times
  simp only [List.mem_map, List.mem_filter, decide_eq_true_eq]
  constructor
  · rintro ⟨b, ⟨hbm, hcb⟩, rfl⟩
    exact ⟨hcb, ⟨b, hbm, rfl⟩⟩
  · rintro ⟨hct, ⟨b, hbm, rfl⟩⟩
    exact ⟨b, ⟨hbm, hct⟩, rfl⟩

theorem bumpAt_buckets_ne_nil [DecidableEq K] (m : BucketMap K) (now : Int)
    (k : K) (hne : ∀ b ∈ m, b.2 ≠ []) :
    ∀ b ∈ bumpAt m now k, b.2 ≠ [] := by
  induction m with
  | nil =>
    intro b hb
    simp [bumpAt] at hb
    rw [hb]
    exact bumpKey_ne_nil [] k
  | cons p rest ih =>
    obtain ⟨t, b0⟩ := p
    intro b hb
    by_cases ht : t = now
    · subst ht
      simp only [bumpAt, if_pos rfl] at hb
      rcases List.mem_cons.mp hb with rfl | hmem
      · exact bumpKey_ne_nil b0 k
      · exact hne b (List.mem_cons_of_mem _ hmem)
    · simp only [bumpAt, if_neg ht] at hb
      rcases List.mem_cons.mp hb with rfl | hmem
      · exact hne (t, b0) (List.mem_cons_self _ _)
      · exact ih (fun b hb2 => hne b (List.mem_cons_of_mem _ hb2)) b hmem

/-! Claim theorems. -/

/-- C5: for every timestamp and every interval (including ones whose
subtraction would underflow the representable time range) the cutoff
computation is total: it stays within the representable range, clamps to the
minimum representable timestamp on underflow, and the call always returns the
count given by the windowed-sum formula. -/
theorem C5_cutoff_total [DecidableEq K] (m : BucketMap K) (k : K)
    (i now : Int) :
    tsMin ≤ cutoffOf now i ∧ cutoffOf now i ≤ tsMax
      ∧ (now - i * nsPerSec < tsMin → cutoffOf now i = tsMin)
      ∧ (retain_and_insert m k i now).1
          = windowSum (bumpAt m now k) (cutoffOf now i) k % U32 :=
  ⟨tsMin_le_cutoff now i, cutoff_le_tsMax now i,
    fun h => cutoff_eq_tsMin now i h, result_eq m k i now⟩

/-- C5 witness: the totality statement at `now = 0` with an interval so
large that the subtraction underflows the representable range. -/
theorem C5_cutoff_total_witness :
    tsMin ≤ cutoffOf 0 1000000000000000
      ∧ cutoffOf 0 1000000000000000 ≤ tsMax
      ∧ ((0:Int) - 1000000000000000 * nsPerSec < tsMin →
          cutoffOf 0 1000000000000000 = tsMin)
      ∧ (retain_and_insert ([] : BucketMap Bool) false 1000000000000000 0).1
          = windowSum (bumpAt ([] : BucketMap Bool) 0 false)
              (cutoffOf 0 1000000000000000) false % U32 :=
  C5_cutoff_total ([] : BucketMap Bool) false 1000000000000000 0

/-- C10: all counting is u32 arithmetic: the per-bucket per-key counter is
incremented modulo `2^32`, the cross-bucket sum is accumulated modulo `2^32`,
and hence the returned count never exceeds `2^32 - 1`. -/
theorem C10_u32_arithmetic [DecidableEq K] (m : BucketMap K) (k : K)
    (i now : Int) :
    (retain_and_insert m k i now).1 < U32
      ∧ (retain_and_insert m k i now).1
          = windowSum (bumpAt m now k) (cutoffOf now i) k % U32
      ∧ countAt (bumpAt m now k) now k = (countAt m now k + 1) % U32 := by
  refine ⟨?_, result_eq m k i now, countAt_bumpAt_self m now k⟩
  rw [result_eq]
  exact Nat.mod_lt _ (by decide)

/-- C4 counterexample: calling with `interval_in_secs = -1` at `now = 0` on
the empty map DOES discard the bucket written by that same call: the
post-state is empty and the returned count is 0, contradicting the claim that
the just-written bucket is not discarded within the same call. -/
theorem C4_counterexample :
    retain_and_insert ([] : BucketMap Bool) false (-1) 0 = (0, []) := by
  decide

/-- C4 (amended): for a negative interval with `now` strictly below the
maximum representable timestamp, the cutoff strictly exceeds `now`, the
bucket written at `now` IS discarded within that same call, and when no
pre-state bucket lies beyond `now` the call returns 0 — an under-count with
no error reported. -/
theorem C4_neg_interval [DecidableEq K] (m : BucketMap K) (k : K)
    (i now : Int) (hi : i < 0) (h2 : now < tsMax) :
    now < cutoffOf now i
      ∧ lookupBucket ((retain_and_insert m k i now).2) now = none
      ∧ ((∀ b ∈ m, b.1 ≤ now) → (retain_and_insert m k i now).1 = 0) := by
  have hcut : now < cutoffOf now i := self_lt_cutoff now i hi h2
  refine ⟨hcut, ?_, ?_⟩
  · rw [post_eq, lookupBucket_filter_ge]
    rw [if_neg (not_le.mpr hcut)]
  · intro hall
    rw [result_eq]
    have hz : windowSum (bumpAt m now k) (cutoffOf now i) k = 0 := by
      apply windowSum_eq_zero_of_lt
      intro b hb
      have hmem : b.1 ∈ times (bumpAt m now k) :=
        List.mem_map_of_mem (fun b => b.1) hb
      rcases (mem_times_bumpAt m now b.1 k).mp hmem with hh | hh
      · omega
      · obtain ⟨a, ha, hfst⟩ := List.mem_map.mp hh
        have := hall a ha
        omega
    simp [hz]

/-- C4 witness: the amended statement at `m = []`, `interval = -1`,
`now = 0`. -/
theorem C4_neg_interval_witness :
    (0:Int) < cutoffOf 0 (-1)
      ∧ lookupBucket ((retain_and_insert ([] : BucketMap Bool) false (-1) 0).2) 0 = none
      ∧ ((∀ b ∈ ([] : BucketMap Bool), b.1 ≤ (0:Int)) →
          (retain_and_insert ([] : BucketMap Bool) false (-1) 0).1 = 0) :=
  C4_neg_interval [] false (-1) 0 (by decide) (by decide)

/-- C1 counterexample: at a state whose u32 counter for the key at the
current timestamp is `2^32 - 1`, the wrapping increment yields 0, so the call
(with interval 0 ≥ 0) returns 0, below the claimed minimum of 1. -/
theorem C1_counterexample :
    (retain_and_insert [((0 : Int), [((false : Bool), 4294967295)])]
        false 0 0).1 = 0 := by
  decide

/-- C1 (amended): provided the in-window u32 count of the key does not wrap
(`windowSum + 1 < 2^32`), every call with a non-negative interval returns at
least 1, and returns exactly 1 when the key has no non-expired prior
occurrence (empty map or fully expired key). -/
theorem C1_min_count [DecidableEq K] (m : BucketMap K) (k : K) (i now : Int)
    (hi : 0 ≤ i) (hnow : tsMin ≤ now)
    (hov : windowSum m (cutoffOf now i) k + 1 < U32) :
    1 ≤ (retain_and_insert m k i now).1
      ∧ (windowSum m (cutoffOf now i) k = 0 →
          (retain_and_insert m k i now).1 = 1) := by
  have hc : cutoffOf now i ≤ now := cutoff_le_self now i hi hnow
  have hws := windowSum_bump m now (cutoffOf now i) k hc hov
  rw [result_eq, hws, Nat.mod_eq_of_lt hov]
  constructor
  · omega
  · intro h0
    omega

/-- C1 witness: the first-ever insert (empty map, interval 5, time 0)
returns 1. -/
theorem C1_min_count_witness :
    1 ≤ (retain_and_insert ([] : BucketMap Bool) false 5 0).1
      ∧ (windowSum ([] : BucketMap Bool) (cutoffOf 0 5) false = 0 →
          (retain_and_insert ([] : BucketMap Bool) false 5 0).1 = 1) :=
  C1_min_count [] false 5 0 (by decide) (by decide) (by decide)

/-- C2: after a call, the post map holds exactly the buckets of the
post-increment map whose timestamp is at least the cutoff; older buckets are
fully removed; every retained bucket is non-empty (given the pre-state has no
empty bucket, an invariant of all reachable states) and non-expired; and the
bucket just written at `now` is present when the interval is non-negative. -/
theorem C2_eviction [DecidableEq K] (m : BucketMap K) (k : K) (i now : Int)
    (hne : ∀ b ∈ m, b.2 ≠ []) :
    (∀ t : Int, lookupBucket ((retain_and_insert m k i now).2) t
        = if cutoffOf now i ≤ t then lookupBucket (bumpAt m now k) t else none)
      ∧ (∀ b ∈ (retain_and_insert m k i now).2, cutoffOf now i ≤ b.1 ∧ b.2 ≠ [])
      ∧ (0 ≤ i → tsMin ≤ now →
          now ∈ times ((retain_and_insert m k i now).2)) := by
  refine ⟨?_, ?_, ?_⟩
  · intro t
    rw [post_eq, lookupBucket_filter_ge]
  · intro b hb
    rw [post_eq] at hb
    have hmem := List.mem_filter.mp hb
    refine ⟨by simpa using hmem.2, ?_⟩
    exact bumpAt_buckets_ne_nil m now k hne b hmem.1
  · intro hi hnow
    rw [post_eq, mem_times_filter_ge]
    exact ⟨cutoff_le_self now i hi hnow,
      (mem_times_bumpAt m now now k).mpr (Or.inl rfl)⟩

/-- C2 witness: at the state with one bucket at time 0 holding one hit, an
insert at time `2e9` with interval 1 second evicts the bucket at 0 and keeps
exactly the new bucket. -/
theorem C2_eviction_witness :
    (lookupBucket ((retain_and_insert [((0:Int), [((false:Bool), 1)])]
          false 1 2000000000).2) 0
        = if cutoffOf 2000000000 1 ≤ (0:Int)
            then lookupBucket
              (bumpAt [((0:Int), [((false:Bool), 1)])] 2000000000 false) 0
            else none)
      ∧ (0 ≤ (1:Int) → tsMin ≤ (2000000000:Int) →
          (2000000000:Int) ∈ times ((retain_and_insert
            [((0:Int), [((false:Bool), 1)])] false 1 2000000000).2))
      ∧ (retain_and_insert [((0:Int), [((false:Bool), 1)])]
          false 1 2000000000).2 = [((2000000000:Int), [((false:Bool), 1)])] := by
  have h := C2_eviction [((0:Int), [((false:Bool), 1)])] false 1 2000000000
    (by decide)
  exact ⟨h.1 0, h.2.2, by decide⟩

/-- C8: when two inserts hit the same timestamp, the second accumulates
inside the existing bucket at that timestamp: afterwards exactly one bucket
entry exists at `now`, and the per-key counter was incremented (from a
default of 0 when absent) rather than a duplicate entry being created. -/
theorem C8_same_timestamp [DecidableEq K] (m : BucketMap K) (ka kb : K)
    (i1 i2 now : Int) (hnodup : (times m).Nodup) (h1 : 0 ≤ i1) (h2 : 0 ≤ i2)
    (hnow : tsMin ≤ now) :
    List.count now (times (retain_and_insert
        (retain_and_insert m ka i1 now).2 kb i2 now).2) = 1
      ∧ countAt (retain_and_insert
            (retain_and_insert m ka i1 now).2 kb i2 now).2 now kb
        = (countAt (retain_and_insert m ka i1 now).2 now kb + 1) % U32
      ∧ countAt (retain_and_insert m ka i1 now).2 now ka
        = (countAt m now ka + 1) % U32 := by
  have hc1 : cutoffOf now i1 ≤ now := cutoff_le_self now i1 h1 hnow
  have hc2 : cutoffOf now i2 ≤ now := cutoff_le_self now i2 h2 hnow
  have hn1 : (times (retain_and_insert m ka i1 now).2).Nodup := by
    rw [post_eq]
    exact nodup_times_filter _ _ (nodup_times_bumpAt m now ka hnodup)
  have hn2 : (times (retain_and_insert
      (retain_and_insert m ka i1 now).2 kb i2 now).2).Nodup := by
    rw [post_eq]
    exact nodup_times_filter _ _
      (nodup_times_bumpAt (retain_and_insert m ka i1 now).2 now kb hn1)
  refine ⟨?_, ?_, ?_⟩
  · have hmem : now ∈ times (retain_and_insert
        (retain_and_insert m ka i1 now).2 kb i2 now).2 := by
      rw [post_eq, mem_times_filter_ge]
      exact ⟨hc2, (mem_times_bumpAt _ now now kb).mpr (Or.inl rfl)⟩
    have hle := List.nodup_iff_count_le_one.mp hn2 now
    have hpos := List.count_pos_iff.mpr hmem
    omega
  · rw [post_eq, countAt_filter_ge, if_pos hc2, countAt_bumpAt_self]
  · rw [post_eq, countAt_filter_ge, if_pos hc1, countAt_bumpAt_self]

/-- C8 witness: two inserts of the same key at time 0 with interval 1 leave
one bucket at time 0 with counter 2. -/
theorem C8_same_timestamp_witness :
    List.count (0:Int) (times (retain_and_insert
        (retain_and_insert ([] : BucketMap Bool) false 1 0).2 false 1 0).2) = 1
      ∧ countAt (retain_and_insert
            (retain_and_insert ([] : BucketMap Bool) false 1 0).2 false 1 0).2
          0 false
        = (countAt (retain_and_insert ([] : BucketMap Bool) false 1 0).2
            0 false + 1) % U32
      ∧ countAt (retain_and_insert ([] : BucketMap Bool) false 1 0).2 0 false
        = (countAt ([] : BucketMap Bool) 0 false + 1) % U32 :=
  C8_same_timestamp [] false false 1 1 0 (by decide) (by decide) (by decide)
    (by decide)

/-- C9: each of the seven category methods forwards its key and interval
unchanged to `retain_and_insert` on exactly its own category's map, stores
the updated map back into that field only, and leaves the other six category
maps unmodified. -/
theorem C9_frame [DecidableEq A] [DecidableEq S] [DecidableEq F]
    [DecidableEq T] (c : Cache A S F T) (ka : A) (ks : S) (kf : F) (kt : T)
    (i now : Int) :
    (c.insert_inbound_connection ka i now).1
        = (retain_and_insert c.seen_inbound_connections ka i now).1
      ∧ (c.insert_inbound_connection ka i now).2.seen_inbound_connections
        = (retain_and_insert c.seen_inbound_connections ka i now).2
      ∧ (c.insert_inbound_connection ka i now).2.seen_inbound_events
        = c.seen_inbound_events
      ∧ (c.insert_inbound_connection ka i now).2.seen_inbound_certificates
        = c.seen_inbound_certificates
      ∧ (c.insert_inbound_connection ka i now).2.seen_inbound_transmissions
        = c.seen_inbound_transmissions
      ∧ (c.insert_inbound_connection ka i now).2.seen_outbound_events
        = c.seen_outbound_events
      ∧ (c.insert_inbound_connection ka i now).2.seen_outbound_certificates
        = c.seen_outbound_certificates
      ∧ (c.insert_inbound_connection ka i now).2.seen_outbound_transmissions
        = c.seen_outbound_transmissions
      ∧ (c.insert_inbound_event ks i now).1
        = (retain_and_insert c.seen_inbound_events ks i now).1
      ∧ (c.insert_inbound_event ks i now).2.seen_inbound_events
        = (retain_and_insert c.seen_inbound_events ks i now).2
      ∧ (c.insert_inbound_event ks i now).2.seen_inbound_connections
        = c.seen_inbound_connections
      ∧ (c.insert_inbound_event ks i now).2.seen_inbound_certificates
        = c.seen_inbound_certificates
      ∧ (c.insert_inbound_event ks i now).2.seen_inbound_transmissions
        = c.seen_inbound_transmissions
      ∧ (c.insert_inbound_event ks i now).2.seen_outbound_events
        = c.seen_outbound_events
      ∧ (c.insert_inbound_event ks i now).2.seen_outbound_certificates
        = c.seen_outbound_certificates
      ∧ (c.insert_inbound_event ks i now).2.seen_outbound_transmissions
        = c.seen_outbound_transmissions
      ∧ (c.insert_inbound_certificate kf i now).1
        = (retain_and_insert c.seen_inbound_certificates kf i now).1
      ∧ (c.insert_inbound_certificate kf i now).2.seen_inbound_certificates
        = (retain_and_insert c.seen_inbound_certificates kf i now).2
      ∧ (c.insert_inbound_certificate kf i now).2.seen_inbound_connections
        = c.seen_inbound_connections
      ∧ (c.insert_inbound_certificate kf i now).2.seen_inbound_events
        = c.seen_inbound_events
      ∧ (c.insert_inbound_certificate kf i now).2.seen_inbound_transmissions
        = c.seen_inbound_transmissions
      ∧ (c.insert_inbound_certificate kf i now).2.seen_outbound_events
        = c.seen_outbound_events
      ∧ (c.insert_inbound_certificate kf i now).2.seen_outbound_certificates
        = c.seen_outbound_certificates
      ∧ (c.insert_inbound_certificate kf i now).2.seen_outbound_transmissions
        = c.seen_outbound_transmissions
      ∧ (c.insert_inbound_transmission kt i now).1
        = (retain_and_insert c.seen_inbound_transmissions kt i now).1
      ∧ (c.insert_inbound_transmission kt i now).2.seen_inbound_transmissions
        = (retain_and_insert c.seen_inbound_transmissions kt i now).2
      ∧ (c.insert_inbound_transmission kt i now).2.seen_inbound_connections
        = c.seen_inbound_connections
      ∧ (c.insert_inbound_transmission kt i now).2.seen_inbound_events
        = c.seen_inbound_events
      ∧ (c.insert_inbound_transmission kt i now).2.seen_inbound_certificates
        = c.seen_inbound_certificates
      ∧ (c.insert_inbound_transmission kt i now).2.seen_outbound_events
        = c.seen_outbound_events
      ∧ (c.insert_inbound_transmission kt i now).2.seen_outbound_certificates
        = c.seen_outbound_certificates
      ∧ (c.insert_inbound_transmission kt i now).2.seen_outbound_transmissions
        = c.seen_outbound_transmissions
      ∧ (c.insert_outbound_event ks i now).1
        = (retain_and_insert c.seen_outbound_events ks i now).1
      ∧ (c.insert_outbound_event ks i now).2.seen_outbound_events
        = (retain_and_insert c.seen_outbound_events ks i now).2
      ∧ (c.insert_outbound_event ks i now).2.seen_inbound_connections
        = c.seen_inbound_connections
      ∧ (c.insert_outbound_event ks i now).2.seen_inbound_events
        = c.seen_inbound_events
      ∧ (c.insert_outbound_event ks i now).2.seen_inbound_certificates
        = c.seen_inbound_certificates
      ∧ (c.insert_outbound_event ks i now).2.seen_inbound_transmissions
        = c.seen_inbound_transmissions
      ∧ (c.insert_outbound_event ks i now).2.seen_outbound_certificates
        = c.seen_outbound_certificates
      ∧ (c.insert_outbound_event ks i now).2.seen_outbound_transmissions
        = c.seen_outbound_transmissions
      ∧ (c.insert_outbound_certificate ks i now).1
        = (retain_and_insert c.seen_outbound_certificates ks i now).1
      ∧ (c.insert_outbound_certificate ks i now).2.seen_outbound_certificates
        = (retain_and_insert c.seen_outbound_certificates ks i now).2
      ∧ (c.insert_outbound_certificate ks i now).2.seen_inbound_connections
        = c.seen_inbound_connections
      ∧ (c.insert_outbound_certificate ks i now).2.seen_inbound_events
        = c.seen_inbound_events
      ∧ (c.insert_outbound_certificate ks i now).2.seen_inbound_certificates
        = c.seen_inbound_certificates
      ∧ (c.insert_outbound_certificate ks i now).2.seen_inbound_transmissions
        = c.seen_inbound_transmissions
      ∧ (c.insert_outbound_certificate ks i now).2.seen_outbound_events
        = c.seen_outbound_events
      ∧ (c.insert_outbound_certificate ks i now).2.seen_outbound_transmissions
        = c.seen_outbound_transmissions
      ∧ (c.insert_outbound_transmission ks i now).1
        = (retain_and_insert c.seen_outbound_transmissions ks i now).1
      ∧ (c.insert_outbound_transmission ks i now).2.seen_outbound_transmissions
        = (retain_and_insert c.seen_outbound_transmissions ks i now).2
      ∧ (c.insert_outbound_transmission ks i now).2.seen_inbound_connections
        = c.seen_inbound_connections
      ∧ (c.insert_outbound_transmission ks i now).2.seen_inbound_events
        = c.seen_inbound_events
      ∧ (c.insert_outbound_transmission ks i now).2.seen_inbound_certificates
        = c.seen_inbound_certificates
      ∧ (c.insert_outbound_transmission ks i now).2.seen_inbound_transmissions
        = c.seen_inbound_transmissions
      ∧ (c.insert_outbound_transmission ks i now).2.seen_outbound_events
        = c.seen_outbound_events
      ∧ (c.insert_outbound_transmission ks i now).2.seen_outbound_certificates
        = c.seen_outbound_certificates :=
  ⟨rfl, rfl, rfl, rfl, rfl, rfl, rfl, rfl,
   rfl, rfl, rfl, rfl, rfl, rfl, rfl, rfl,
   rfl, rfl, rfl, rfl, rfl, rfl, rfl, rfl,
   rfl, rfl, rfl, rfl, rfl, rfl, rfl, rfl,
   rfl, rfl, rfl, rfl, rfl, rfl, rfl, rfl,
   rfl, rfl, rfl, rfl, rfl, rfl, rfl, rfl,
   rfl, rfl, rfl, rfl, rfl, rfl, rfl, rfl⟩

theorem times_retain_subset [DecidableEq K] (m : BucketMap K) (k : K)
    (w s t : Int) (h : t ∈ times ((retain_and_insert m k w s).2)) :
    t = s ∨ t ∈ times m := by
  rw [post_eq, mem_times_filter_ge] at h
  exact (mem_times_bumpAt m s t k).mp h.2

theorem times_runCalls_subset [DecidableEq K] (ts : List Int)
    (m : BucketMap K) (k : K) (w t : Int)
    (h : t ∈ times (runCalls m k w ts).2) : t ∈ ts ∨ t ∈ times m := by
  induction ts generalizing m with
  | nil => exact Or.inr h
  | cons s rest ih =>
    simp only [runCalls] at h
    rcases ih (retain_and_insert m k w s).2 h with h2 | h2
    · exact Or.inl (List.mem_cons_of_mem _ h2)
    · rcases times_retain_subset m k w s t h2 with h3 | h3
      · exact Or.inl (by rw [h3]; exact List.mem_cons_self _ _)
      · exact Or.inr h3

theorem sorted_le_getLast (ts : List Int) :
    ∀ (hne : ts ≠ []), List.Pairwise (fun a b : Int => a ≤ b) ts →
      ∀ x ∈ ts, x ≤ ts.getLast hne := by
  induction ts with
  | nil =>
    intro hne
    exact absurd rfl hne
  | cons a rest ih =>
    intro hne hsort x hx
    cases rest with
    | nil =>
      have hxa : x = a := by simpa using hx
      subst hxa
      exact le_refl _
    | cons b rest2 =>
      have hne2 : b :: rest2 ≠ [] := by simp
      have hlast : (a :: b :: rest2).getLast hne = (b :: rest2).getLast hne2 :=
        List.getLast_cons hne2
      rcases List.mem_cons.mp hx with rfl | hx2
      · rw [hlast]
        exact (List.pairwise_cons.mp hsort).1 _ (List.getLast_mem hne2)
      · rw [hlast]
        exact ih hne2 (List.pairwise_cons.mp hsort).2 x hx2

/-- C7: after any number of prior inserts of key `k` with a fixed
non-negative interval `w`, waiting strictly longer than `w` seconds after the
last of them makes the next insert return exactly 1: every prior occurrence
has expired and is evicted. -/
theorem C7_window_decay [DecidableEq K] (k : K) (w : Int) (ts : List Int)
    (hne : ts ≠ []) (tNew : Int) (hw : 0 ≤ w)
    (hsort : List.Pairwise (fun a b : Int => a ≤ b) ts)
    (hnew1 : tsMin ≤ tNew) (hnew2 : tNew ≤ tsMax)
    (hgap : w * nsPerSec < tNew - ts.getLast hne) :
    (retain_and_insert (runCalls ([] : BucketMap K) k w ts).2 k w tNew).1
      = 1 := by
  have hwns : 0 ≤ w * nsPerSec := mul_nonneg hw (by decide)
  have hcle : cutoffOf tNew w ≤ tNew := cutoff_le_self tNew w hw hnew1
  have hcge : tNew - w * nsPerSec ≤ cutoffOf tNew w :=
    sub_le_cutoff tNew w (by omega)
  have hts : ∀ t ∈ times (runCalls ([] : BucketMap K) k w ts).2,
      t < cutoffOf tNew w := by
    intro t ht
    rcases times_runCalls_subset ts [] k w t ht with h | h
    · have := sorted_le_getLast ts hne hsort t h
      omega
    · simp [times] at h
  have hnotmem : tNew ∉ times (runCalls ([] : BucketMap K) k w ts).2 := by
    intro hmem
    have := hts tNew hmem
    omega
  rw [result_eq, bumpAt_of_not_mem _ _ _ hnotmem, windowSum_append]
  have hz : windowSum (runCalls ([] : BucketMap K) k w ts).2
      (cutoffOf tNew w) k = 0 := by
    apply windowSum_eq_zero_of_lt
    intro b hb
    exact hts b.1 (List.mem_map_of_mem (fun b => b.1) hb)
  rw [hz]
  simp [windowSum, lookupCount, hcle, one_mod_U32]

/-- C7 witness: one insert at time 0 with interval 1s, then an insert 2
seconds later returns 1. -/
theorem C7_window_decay_witness :
    (retain_and_insert (runCalls ([] : BucketMap Bool) false 1 [0]).2
        false 1 2000000000).1 = 1 :=
  C7_window_decay false 1 [0] (by decide) 2000000000 (by decide)
    (by decide) (by decide) (by decide) (by decide)

theorem windowSum_eq_totalCount_of_ge [DecidableEq K] (m : BucketMap K)
    (c : Int) (k : K) :
    (∀ b ∈ m, c ≤ b.1) → windowSum m c k = totalCount m k := by
  induction m with
  | nil =>
    intro _
    rfl
  | cons p rest ih =>
    intro h
    obtain ⟨a, b⟩ := p
    have hp : c ≤ a := h (a, b) (by simp)
    have ihr := ih (fun q hq => h q (List.mem_cons_of_mem _ hq))
    simp only [totalCount] at ihr
    simp [windowSum, totalCount, hp]
    omega

theorem runCalls_range [DecidableEq K] (ts : List Int) :
    ∀ (m : BucketMap K) (k : K) (w : Int) (n : Nat),
      totalCount m k = n →
      (∀ s ∈ ts, ∀ t ∈ times m, cutoffOf s w ≤ t) →
      List.Pairwise (fun a b : Int => cutoffOf b w ≤ a) ts →
      (∀ s ∈ ts, cutoffOf s w ≤ s) →
      n + ts.length < U32 →
      (runCalls m k w ts).1 = List.range' (n + 1) ts.length
        ∧ totalCount (runCalls m k w ts).2 k = n + ts.length := by
  induction ts with
  | nil =>
    intro m k w n hn h1 h2 h3 h4
    exact ⟨rfl, by simpa using hn⟩
  | cons s rest ih =>
    intro m k w n hn h1 h2 h3 h4
    have hself : cutoffOf s w ≤ s := h3 s (List.mem_cons_self _ _)
    have hkeep : ∀ b ∈ bumpAt m s k, cutoffOf s w ≤ b.1 := by
      intro b hb
      have hmem : b.1 ∈ times (bumpAt m s k) :=
        List.mem_map_of_mem (fun b => b.1) hb
      rcases (mem_times_bumpAt m s b.1 k).mp hmem with hh | hh
      · rw [hh]
        exact hself
      · exact h1 s (List.mem_cons_self _ _) b.1 hh
    have hret : (retain_and_insert m k w s).2 = bumpAt m s k := by
      rw [post_eq]
      exact filter_eq_self_of_ge _ _ hkeep
    have hlen : (s :: rest).length = rest.length + 1 := by simp
    have hov : totalCount m k + 1 < U32 := by
      rw [hlen] at h4
      omega
    have htc : totalCount (bumpAt m s k) k = n + 1 := by
      rw [totalCount_bump m s k hov, hn]
    have hres : (retain_and_insert m k w s).1 = n + 1 := by
      rw [result_eq]
      rw [windowSum_eq_totalCount_of_ge _ _ _ hkeep, htc,
        Nat.mod_eq_of_lt (by rw [hlen] at h4; omega)]
    have h1' : ∀ s' ∈ rest, ∀ t ∈ times (bumpAt m s k), cutoffOf s' w ≤ t := by
      intro s' hs' t ht
      rcases (mem_times_bumpAt m s t k).mp ht with hh | hh
      · rw [hh]
        exact (List.pairwise_cons.mp h2).1 s' hs'
      · exact h1 s' (List.mem_cons_of_mem _ hs') t hh
    have haux := ih (bumpAt m s k) k w (n + 1) htc h1'
      (List.pairwise_cons.mp h2).2
      (fun s' hs' => h3 s' (List.mem_cons_of_mem _ hs'))
      (by rw [hlen] at h4; omega)
    constructor
    · simp only [runCalls]
      rw [hret, hres, haux.1, hlen, List.range'_succ]
    · simp only [runCalls]
      rw [hret, haux.2, hlen]
      omega

/-- C3 (amended): starting from the empty map, any sequence of fewer than
`2^32` calls for one key with one fixed non-negative interval, at
nondecreasing representable timestamps all within the window of the last
call, returns 1, 2, 3, ... in order (whether the calls hit the same
timestamp bucket or distinct ones). -/
theorem C3_sequential [DecidableEq K] (k : K) (w : Int) (ts : List Int)
    (hne : ts ≠ []) (hw : 0 ≤ w)
    (hsort : List.Pairwise (fun a b : Int => a ≤ b) ts)
    (hrange : ∀ t ∈ ts, tsMin ≤ t)
    (hwin : ∀ t ∈ ts, ts.getLast hne - t ≤ w * nsPerSec)
    (hlen : ts.length < U32) :
    (runCalls ([] : BucketMap K) k w ts).1 = List.range' 1 ts.length := by
  have h3 : ∀ s ∈ ts, cutoffOf s w ≤ s :=
    fun s hs => cutoff_le_self s w hw (hrange s hs)
  have h2 : List.Pairwise (fun a b : Int => cutoffOf b w ≤ a) ts := by
    refine List.Pairwise.imp_of_mem ?_ hsort
    intro a b ha hb hab
    have hbl : b ≤ ts.getLast hne := sorted_le_getLast ts hne hsort b hb
    have hwa := hwin a ha
    have hba : b - w * nsPerSec ≤ a := by omega
    have hta : tsMin ≤ a := hrange a ha
    unfold cutoffOf saturatingSub
    exact max_le hta (le_trans (min_le_right _ _) hba)
  have h1 : ∀ s ∈ ts, ∀ t ∈ times ([] : BucketMap K), cutoffOf s w ≤ t := by
    intro s hs t ht
    simp [times] at ht
  have haux := runCalls_range ts ([] : BucketMap K) k w 0 (by simp [totalCount])
    h1 h2 h3 (by omega)
  simpa using haux.1

/-- C3 witness: three back-to-back inserts (times 0, 1, 2 ns; interval 5s)
return 1, 2, 3. -/
theorem C3_sequential_witness :
    (runCalls ([] : BucketMap Bool) false 5 [0, 1, 2]).1
      = List.range' 1 3 :=
  C3_sequential false 5 [0, 1, 2] (by decide) (by decide) (by decide)
    (by decide) (by decide) (by decide)

theorem map_mod_range'_shift :
    ∀ (n s c : Nat),
      (List.range' s n).map (fun j => (c + 1 + j) % U32)
        = (List.range' (s + 1) n).map (fun j => (c + j) % U32) := by
  intro n
  induction n with
  | zero =>
    intro s c
    rfl
  | succ n ih =>
    intro s c
    rw [List.range'_succ, List.range'_succ]
    simp only [List.map_cons]
    rw [ih (s + 1) c]
    have hh : c + 1 + s = c + (s + 1) := by omega
    rw [hh]

theorem runCalls_const_zero (n : Nat) :
    ∀ c : Nat,
      (runCalls [((0:Int), [((false:Bool), c % U32)])] false 0
          (List.replicate n 0)).1
        = (List.range' 1 n).map (fun j => (c + j) % U32) := by
  induction n with
  | zero =>
    intro c
    rfl
  | succ n ih =>
    intro c
    have hc0 : cutoffOf 0 0 = (0:Int) := by decide
    have hmm : (c % U32 + 1) % U32 = (c + 1) % U32 := by
      rw [Nat.mod_add_mod]
    have hstep : retain_and_insert [((0:Int), [((false:Bool), c % U32)])]
        false 0 0
        = ((c + 1) % U32, [((0:Int), [((false:Bool), (c + 1) % U32)])]) := by
      simp [retain_and_insert, bumpAt, bumpKey, lookupCount, sumHits, hc0,
        List.filter_cons, hmm, Nat.mod_mod_of_dvd _ (dvd_refl U32)]
    simp only [List.replicate_succ, runCalls, hstep]
    rw [ih (c + 1), List.range'_succ]
    simp only [List.map_cons]
    rw [map_mod_range'_shift n 1 c]

/-- C3 counterexample: in a run of `2^32` same-timestamp calls (key `false`,
interval 0, all at time 0) the returned counts are not 1, 2, ..., 2^32: the
u32 accumulator wraps, so some call returns 0, which the claimed sequence
never contains. -/
theorem C3_counterexample :
    (runCalls ([] : BucketMap Bool) false 0
        (List.replicate 4294967296 (0:Int))).1
      ≠ List.range' 1 4294967296 := by
  have hrep : List.replicate 4294967296 (0:Int)
      = 0 :: List.replicate 4294967295 0 := by
    rw [show (4294967296:Nat) = 4294967295 + 1 by norm_num,
      List.replicate_succ]
  have hfirst1 : (retain_and_insert ([] : BucketMap Bool) false 0 0).1
      = 1 := by decide
  have hfirst2 : (retain_and_insert ([] : BucketMap Bool) false 0 0).2
      = [((0:Int), [((false:Bool), 1 % U32)])] := by decide
  have hcons : ∀ (m : BucketMap Bool) (t : Int) (ts : List Int),
      (runCalls m false 0 (t :: ts)).1
        = (retain_and_insert m false 0 t).1
          :: (runCalls (retain_and_insert m false 0 t).2 false 0 ts).1 :=
    fun m t ts => rfl
  have hrun : (runCalls ([] : BucketMap Bool) false 0
      (List.replicate 4294967296 (0:Int))).1
      = 1 :: (List.range' 1 4294967295).map (fun j => (1 + j) % U32) := by
    rw [hrep, hcons, hfirst1, hfirst2, runCalls_const_zero 4294967295 1]
  intro heq
  have h0 : (0:Nat) ∈ (runCalls ([] : BucketMap Bool) false 0
      (List.replicate 4294967296 (0:Int))).1 := by
    rw [hrun]
    refine List.mem_cons_of_mem _ (List.mem_map.mpr ?_)
    refine ⟨4294967295, ?_, by decide⟩
    rw [List.mem_range']
    exact ⟨4294967294, by norm_num⟩
  rw [heq] at h0
  rw [List.mem_range'] at h0
  obtain ⟨i, hi, h0⟩ := h0
  omega

theorem windowSum_eq_finset_sum [DecidableEq K] (m : BucketMap K) :
    ∀ (S : Finset Int), (times m).Nodup → (∀ t ∈ times m, t ∈ S) →
      ∀ (c : Int) (k : K),
        windowSum m c k = ∑ t ∈ S.filter (fun t => c ≤ t), countAt m t k := by
  induction m with
  | nil =>
    intro S _ _ c k
    rw [windowSum]
    exact (Finset.sum_eq_zero (fun t _ => rfl)).symm
  | cons p rest ih =>
    intro S hnd hsub c k
    obtain ⟨t0, b⟩ := p
    have hnd2 : (t0 :: times rest).Nodup := hnd
    have hndc := List.nodup_cons.mp hnd2
    have ht0S : t0 ∈ S := hsub t0 (by simp [times])
    have hsub' : ∀ t ∈ times rest, t ∈ S.erase t0 := by
      intro t ht
      refine Finset.mem_erase.mpr ⟨?_, hsub t (by simp [times]; right; simpa [times] using ht)⟩
      intro hh
      rw [hh] at ht
      exact hndc.1 ht
    have ihr := ih (S.erase t0) hndc.2 hsub' c k
    have hpt : ∀ x : Int, x ≠ t0 →
        countAt ((t0, b) :: rest) x k = countAt rest x k := by
      intro x hx
      simp [countAt, Ne.symm hx]
    by_cases hct : c ≤ t0
    · have ht0f : t0 ∈ S.filter (fun t => c ≤ t) :=
        Finset.mem_filter.mpr ⟨ht0S, hct⟩
      have hsplit : countAt ((t0, b) :: rest) t0 k
          + ∑ x ∈ (S.filter (fun t => c ≤ t)).erase t0,
              countAt ((t0, b) :: rest) x k
          = ∑ x ∈ S.filter (fun t => c ≤ t), countAt ((t0, b) :: rest) x k :=
        Finset.add_sum_erase (S.filter (fun t => c ≤ t))
          (fun t => countAt ((t0, b) :: rest) t k) ht0f
      have ht0c : countAt ((t0, b) :: rest) t0 k = lookupCount b k := by
        simp [countAt]
      have htail : ∑ x ∈ (S.filter (fun t => c ≤ t)).erase t0,
          countAt ((t0, b) :: rest) x k
          = ∑ x ∈ (S.erase t0).filter (fun t => c ≤ t), countAt rest x k := by
        rw [Finset.filter_erase]
        apply Finset.sum_congr rfl
        intro x hx
        exact hpt x (Finset.ne_of_mem_erase hx)
      rw [show windowSum ((t0, b) :: rest) c k
          = lookupCount b k + windowSum rest c k by simp [windowSum, hct]]
      rw [ihr, ← hsplit, ht0c, htail]
    · have ht0f : t0 ∉ S.filter (fun t => c ≤ t) := by
        intro hh
        exact hct (Finset.mem_filter.mp hh).2
      have hSE : (S.erase t0).filter (fun t => c ≤ t)
          = S.filter (fun t => c ≤ t) := by
        rw [Finset.filter_erase]
        exact Finset.erase_eq_of_not_mem ht0f
      have htail : ∑ x ∈ S.filter (fun t => c ≤ t),
          countAt ((t0, b) :: rest) x k
          = ∑ x ∈ (S.erase t0).filter (fun t => c ≤ t), countAt rest x k := by
        rw [hSE]
        apply Finset.sum_congr rfl
        intro x hx
        refine hpt x ?_
        intro hh
        rw [hh] at hx
        exact ht0f hx
      rw [show windowSum ((t0, b) :: rest) c k = windowSum rest c k by
        simp [windowSum, hct]]
      rw [ihr, htail]

theorem windowSum_congr_of_countAt [DecidableEq K] (mA mB : BucketMap K)
    (c : Int) (k : K) (hA : (times mA).Nodup) (hB : (times mB).Nodup)
    (h : ∀ t : Int, c ≤ t → countAt mA t k = countAt mB t k) :
    windowSum mA c k = windowSum mB c k := by
  have hsubA : ∀ t ∈ times mA, t ∈ (times mA).toFinset ∪ (times mB).toFinset := by
    intro t ht
    exact Finset.mem_union_left _ (List.mem_toFinset.mpr ht)
  have hsubB : ∀ t ∈ times mB, t ∈ (times mA).toFinset ∪ (times mB).toFinset := by
    intro t ht
    exact Finset.mem_union_right _ (List.mem_toFinset.mpr ht)
  rw [windowSum_eq_finset_sum mA ((times mA).toFinset ∪ (times mB).toFinset)
    hA hsubA c k]
  rw [windowSum_eq_finset_sum mB ((times mA).toFinset ∪ (times mB).toFinset)
    hB hsubB c k]
  apply Finset.sum_congr rfl
  intro x hx
  exact h x (Finset.mem_filter.mp hx).2

theorem outputsFor_cons_self [DecidableEq K] (k : K) (n : Nat)
    (l : List (K × Nat)) :
    outputsFor k ((k, n) :: l) = n :: outputsFor k l := by
  simp [outputsFor, List.filter_cons]

theorem outputsFor_cons_ne [DecidableEq K] (k k' : K) (h : k' ≠ k) (n : Nat)
    (l : List (K × Nat)) :
    outputsFor k ((k', n) :: l) = outputsFor k l := by
  simp [outputsFor, List.filter_cons, h]

theorem runOps_noninterference_aux [DecidableEq K] (k1 k2 : K)
    (h12 : k1 ≠ k2) (w : Int) :
    ∀ (ops : List (K × Int)) (mA mB : BucketMap K) (bnd : Int),
      (times mA).Nodup → (times mB).Nodup →
      (∀ t : Int, bnd ≤ t → countAt mA t k2 = countAt mB t k2) →
      (∀ o ∈ ops, bnd ≤ cutoffOf o.2 w ∧ cutoffOf o.2 w ≤ o.2) →
      List.Pairwise (fun a b : K × Int => cutoffOf a.2 w ≤ cutoffOf b.2 w) ops →
      outputsFor k2 (runOps mA w ops).1
        = outputsFor k2 (runOps mB w
            (ops.filter (fun o => decide (o.1 ≠ k1)))).1 := by
  intro ops
  induction ops with
  | nil =>
    intro mA mB bnd _ _ _ _ _
    rfl
  | cons o rest ih =>
    intro mA mB bnd hndA hndB hAg hops hmono
    obtain ⟨k, t⟩ := o
    have hbc : bnd ≤ cutoffOf t w := (hops (k, t) (List.mem_cons_self _ _)).1
    have hct : cutoffOf t w ≤ t := (hops (k, t) (List.mem_cons_self _ _)).2
    have hndA' : (times (retain_and_insert mA k w t).2).Nodup := by
      rw [post_eq]
      exact nodup_times_filter _ _ (nodup_times_bumpAt mA t k hndA)
    have hndB' : (times (retain_and_insert mB k w t).2).Nodup := by
      rw [post_eq]
      exact nodup_times_filter _ _ (nodup_times_bumpAt mB t k hndB)
    have hAgBump : ∀ s : Int, cutoffOf t w ≤ s →
        countAt (bumpAt mA t k) s k2 = countAt (bumpAt mB t k) s k2 := by
      intro s hs
      by_cases hsk : s = t
      · subst hsk
        by_cases hkk : k = k2
        · subst hkk
          rw [countAt_bumpAt_self, countAt_bumpAt_self, hAg s (le_trans hbc hs)]
        · rw [countAt_bumpAt_ne_key mA s s k2 k (fun hh => hkk hh.symm),
            countAt_bumpAt_ne_key mB s s k2 k (fun hh => hkk hh.symm)]
          exact hAg s (le_trans hbc hs)
      · rw [countAt_bumpAt_ne_time mA t s k2 k hsk,
          countAt_bumpAt_ne_time mB t s k2 k hsk]
        exact hAg s (le_trans hbc hs)
    have hAg' : ∀ s : Int, cutoffOf t w ≤ s →
        countAt (retain_and_insert mA k w t).2 s k2
          = countAt (retain_and_insert mB k w t).2 s k2 := by
      intro s hs
      rw [post_eq, post_eq, countAt_filter_ge, countAt_filter_ge,
        if_pos hs, if_pos hs]
      exact hAgBump s hs
    have hops' : ∀ o ∈ rest,
        cutoffOf t w ≤ cutoffOf o.2 w ∧ cutoffOf o.2 w ≤ o.2 := by
      intro o ho
      exact ⟨(List.pairwise_cons.mp hmono).1 o ho,
        (hops o (List.mem_cons_of_mem _ ho)).2⟩
    have hmono' := (List.pairwise_cons.mp hmono).2
    by_cases hk1 : k = k1
    · have hkk2 : k ≠ k2 := by
        rw [hk1]
        exact h12
      have hAgA : ∀ s : Int, cutoffOf t w ≤ s →
          countAt (retain_and_insert mA k w t).2 s k2 = countAt mB s k2 := by
        intro s hs
        rw [post_eq, countAt_filter_ge, if_pos hs,
          countAt_bumpAt_ne_key mA t s k2 k (Ne.symm hkk2)]
        exact hAg s (le_trans hbc hs)
      have htail := ih (retain_and_insert mA k w t).2 mB (cutoffOf t w)
        hndA' hndB hAgA hops' hmono'
      have hhead : ((k, t) :: rest).filter (fun o => decide (o.1 ≠ k1))
          = rest.filter (fun o => decide (o.1 ≠ k1)) := by
        simp [List.filter_cons, hk1]
      rw [hhead]
      simp only [runOps]
      rw [outputsFor_cons_ne k2 k hkk2]
      exact htail
    · have hhead : ((k, t) :: rest).filter (fun o => decide (o.1 ≠ k1))
          = (k, t) :: rest.filter (fun o => decide (o.1 ≠ k1)) := by
        simp [List.filter_cons, hk1]
      have htail := ih (retain_and_insert mA k w t).2
        (retain_and_insert mB k w t).2 (cutoffOf t w)
        hndA' hndB' hAg' hops' hmono'
      rw [hhead]
      simp only [runOps]
      by_cases hk2 : k = k2
      · subst hk2
        have hres : (retain_and_insert mA k w t).1
            = (retain_and_insert mB k w t).1 := by
          rw [result_eq, result_eq,
            windowSum_congr_of_countAt (bumpAt mA t k) (bumpAt mB t k)
              (cutoffOf t w) k (nodup_times_bumpAt mA t k hndA)
              (nodup_times_bumpAt mB t k hndB) hAgBump]
        rw [outputsFor_cons_self, outputsFor_cons_self, hres, htail]
      · rw [outputsFor_cons_ne k2 k hk2, outputsFor_cons_ne k2 k hk2]
        exact htail

/-- C6 counterexample: with differing per-call intervals, calls for key
`true` DO affect the counts returned for key `false` on the same map: a
`true` call with interval 0 evicts a bucket that a later `false` call with
interval 10 would still have counted. -/
theorem C6_counterexample :
    outputsFor false (runOpsVar ([] : BucketMap Bool)
        [(false, 10, 0), (true, 0, 5), (false, 10, 6)]).1
      ≠ outputsFor false (runOpsVar ([] : BucketMap Bool)
          [(false, 10, 0), (false, 10, 6)]).1 := by
  decide

/-- C6 (amended): for runs over one map that all use one fixed non-negative
interval `w`, at nondecreasing representable wall-clock timestamps, the
counts returned for key `k2` are the same whether or not the calls with key
`k1 ≠ k2` occur.  (With per-call intervals the property fails: a `k1` call
with a shorter interval evicts history a later `k2` call would count.) -/
theorem C6_noninterference [DecidableEq K] (k1 k2 : K) (h12 : k1 ≠ k2)
    (w : Int) (hw : 0 ≤ w) (ops : List (K × Int))
    (hmono : List.Pairwise (fun a b : K × Int => a.2 ≤ b.2) ops)
    (hrange : ∀ o ∈ ops, tsMin ≤ o.2) :
    outputsFor k2 (runOps ([] : BucketMap K) w ops).1
      = outputsFor k2 (runOps ([] : BucketMap K) w
          (ops.filter (fun o => decide (o.1 ≠ k1)))).1 := by
  apply runOps_noninterference_aux k1 k2 h12 w ops ([] : BucketMap K)
    ([] : BucketMap K) tsMin (by simp [times]) (by simp [times])
    (fun t _ => rfl)
    (fun o ho => ⟨tsMin_le_cutoff _ _, cutoff_le_self _ _ hw (hrange o ho)⟩)
    (List.Pairwise.imp (fun hab => cutoff_mono _ _ w hab) hmono)

/-- C6 witness: interleaving one `true` call between two `false` calls, all
with interval 5s, leaves the `false` outputs unchanged. -/
theorem C6_noninterference_witness :
    outputsFor false (runOps ([] : BucketMap Bool) 5
        [(false, 0), (true, 1000000000), (false, 2000000000)]).1
      = outputsFor false (runOps ([] : BucketMap Bool) 5
          (([(false, 0), (true, 1000000000), (false, 2000000000)]
            : List (Bool × Int)).filter (fun o => decide (o.1 ≠ true)))).1 :=
  C6_noninterference true false (by decide) 5 (by decide)
    [(false, 0), (true, 1000000000), (false, 2000000000)]
    (by decide) (by decide)

end SnarkOS
